import Mathlib

/-!
Verification of the message-threading and revision-tracking engine of the
Django-signals_orm-0x04/messaging app (models.py, signals.py, managers.py,
views.py).

The Django ORM rows are shallowly embedded as Lean structures and the views,
signal handlers and managers as pure functions over an explicit store.
Auto-assigned primary keys of Notification and MessageHistory rows are not
modelled (no verified property mentions them; rows are identified by their
position in the store lists, newest first, mirroring the Meta orderings
-created_at / -edited_at).  Message primary keys are modelled because parent
references and lookups use them.  Timestamps are naturals.
-/

namespace Messaging

/-- A row of the Message model (models.py).  The read column is declared in
migration 0003_message_read (default False); models.py itself never declares
the field, which is part of what claim C4 is about. -/
structure Message where
  id : Nat
  senderId : Nat
  receiverId : Nat
  parentId : Option Nat
  content : String
  createdAt : Nat
  edited : Bool
  editedAt : Option Nat
  editedById : Option Nat
  read : Bool
deriving DecidableEq, Repr

/-- A row of the Notification model (models.py). -/
structure Notification where
  userId : Nat
  messageId : Nat
  isRead : Bool
  createdAt : Nat
deriving DecidableEq, Repr

/-- A row of the MessageHistory model (models.py): the revision snapshot taken
before an edit overwrites the content. -/
structure MessageHistory where
  messageId : Nat
  oldContent : String
  editedAt : Nat
  editedById : Option Nat
deriving DecidableEq, Repr

/-- The relational store: user pks plus the three tables. -/
structure Store where
  users : List Nat
  messages : List Message
  notifications : List Notification
  histories : List MessageHistory
deriving DecidableEq, Repr

/-- Message.objects.get(pk=pk) (first row with that pk). -/
def findMsg (s : Store) (pk : Nat) : Option Message :=
  s.messages.find? (fun m => m.id = pk)

/-- Primary keys of the message table are unique (database pk constraint). -/
def idsNodup (s : Store) : Prop :=
  (s.messages.map (fun m => m.id)).Nodup

instance (s : Store) : Decidable (idsNodup s) := by
  unfold idsNodup; infer_instance

/-- The parent id of the message with the given pk, when both exist. -/
def parentOf (s : Store) (pk : Nat) : Option Nat :=
  (findMsg s pk).bind (fun m => m.parentId)

/-- Walk k parent links upward from a pk (used only to state which messages
are ancestors/descendants of which). -/
def upSteps (s : Store) : Nat → Nat → Option Nat
  | 0, pk => some pk
  | k + 1, pk => (parentOf s pk).bind (upSteps s k)

/-- m is a proper descendant of the message with pk rootId: some positive
number of parent steps from m reaches rootId. -/
def IsDesc (s : Store) (rootId : Nat) (m : Message) : Prop :=
  m ∈ s.messages ∧ ∃ e, 1 ≤ e ∧ upSteps s e m.id = some rootId

/-- Every non-null parent reference resolves to an existing row. -/
def closedStoreB (s : Store) : Bool :=
  s.messages.all (fun m =>
    match m.parentId with
    | none => true
    | some pid => s.messages.any (fun p => p.id == pid))

def ClosedStore (s : Store) : Prop := closedStoreB s = true

instance (s : Store) : Decidable (ClosedStore s) := by
  unfold ClosedStore; infer_instance

/-- The spec invariant that makes the parent graph acyclic by construction:
a parent always exists and precedes its children in creation order. -/
def parentsPrecedeB (s : Store) : Bool :=
  s.messages.all (fun m =>
    match m.parentId with
    | none => true
    | some pid => s.messages.any (fun p => p.id == pid && decide (p.createdAt < m.createdAt)))

def ParentsPrecede (s : Store) : Prop := parentsPrecedeB s = true

instance (s : Store) : Decidable (ParentsPrecede s) := by
  unfold ParentsPrecede; infer_instance

/-! ### Write path: Message.objects.create and Message.save

create_message_notification (signals.py, post_save): when created is true,
Notification.objects.create(user=instance.receiver, message=instance); the
is_read column defaults to False.

store_previous_version (signals.py, pre_save): for an instance with a pk
that exists in the table, fetch the old row; if the content changed, create
a MessageHistory row carrying the old content and the instance's edited_by,
set instance.edited = True and set instance.edited_at to now only when the
instance's edited_at is None. -/

/-- Message.objects.create(...) followed by the post_save handler
create_message_notification with created = True.  New rows are prepended
(Meta ordering is -created_at). -/
def createMessage (s : Store) (newId senderId receiverId : Nat)
    (parentId : Option Nat) (content : String) (now : Nat) : Store :=
  let m : Message :=
    { id := newId, senderId := senderId, receiverId := receiverId,
      parentId := parentId, content := content, createdAt := now,
      edited := false, editedAt := none, editedById := none, read := false }
  let n : Notification :=
    { userId := receiverId, messageId := newId, isRead := false, createdAt := now }
  { s with messages := m :: s.messages, notifications := n :: s.notifications }

/-- instance.save() on an instance whose pk already exists in the table:
the pre_save handler store_previous_version runs, then the UPDATE persists
the (possibly handler-modified) instance; post_save fires with
created = False, so no notification is made.  When the pk is absent the
handler returns early; that branch is never exercised by the verified
claims and is modelled as a no-op. -/
def saveInstance (s : Store) (inst : Message) (now : Nat) : Store :=
  match findMsg s inst.id with
  | none => s
  | some old =>
    if old.content ≠ inst.content then
      let inst' : Message :=
        { inst with
          edited := true,
          editedAt := match inst.editedAt with
                      | none => some now
                      | some t => some t }
      let h : MessageHistory :=
        { messageId := old.id, oldContent := old.content, editedAt := now,
          editedById := inst.editedById }
      { s with
        histories := h :: s.histories,
        messages := s.messages.map (fun m => if m.id = inst.id then inst' else m) }
    else
      { s with
        messages := s.messages.map (fun m => if m.id = inst.id then inst else m) }

/-- A caller-side edit: fetch the row, overwrite content and edited_by, leave
edited_at at whatever value the caller chose for the instance (callers that
do not touch it carry the fetched value), then save. -/
def editMessage (s : Store) (pk : Nat) (newContent : String)
    (editor : Option Nat) (instEditedAt : Option Nat) (now : Nat) : Store :=
  match findMsg s pk with
  | none => s
  | some old =>
    saveInstance s
      { old with content := newContent, editedById := editor, editedAt := instEditedAt }
      now

/-- One queued save of an existing message (used to state that a sequence of
edits after creation never touches the notification table). -/
structure EditOp where
  pk : Nat
  content : String
  editor : Option Nat
  instEditedAt : Option Nat
  now : Nat
deriving DecidableEq, Repr

def applyEdits (s : Store) (ops : List EditOp) : Store :=
  ops.foldl (fun st e => editMessage st e.pk e.content e.editor e.instEditedAt e.now) s

/-! ### UnreadMessagesManager (managers.py)

get_queryset filters read=False; unread_for_user further filters
receiver=user; the Meta ordering -created_at (and the explicit
order_by('-created_at') of the unread_inbox view) yields newest first. -/

/-- Newest-first comparison used by the -created_at orderings. -/
def newerFirst (a b : Message) : Prop := b.createdAt ≤ a.createdAt

instance : DecidableRel newerFirst := fun a b => Nat.decLe b.createdAt a.createdAt

instance : IsTotal Message newerFirst :=
  ⟨fun a b => Nat.le_total b.createdAt a.createdAt⟩

instance : IsTrans Message newerFirst :=
  ⟨fun _ _ _ h1 h2 => Nat.le_trans h2 h1⟩

/-- Oldest-first comparison used by order_by('created_at'). -/
def olderFirst (a b : Message) : Prop := a.createdAt ≤ b.createdAt

instance : DecidableRel olderFirst := fun a b => Nat.decLe a.createdAt b.createdAt

instance : IsTotal Message olderFirst := ⟨fun a b => Nat.le_total a.createdAt b.createdAt⟩

instance : IsTrans Message olderFirst := ⟨fun _ _ _ h1 h2 => Nat.le_trans h1 h2⟩

/-- Message.unread.unread_for_user(user) as defined in managers.py, with the
newest-first ordering applied on materialization. -/
def unread_for_user (s : Store) (u : Nat) : List Message :=
  List.insertionSort newerFirst
    (s.messages.filter (fun m => !m.read && m.receiverId == u))

/-! ### Ancestor climb (Message.get_thread_messages, models.py)

    root = self
    seen = set()
    while root.parent_message_id and root.parent_message_id not in seen:
        seen.add(root.id)
        root = root.parent_message
    return [root] + root.get_all_replies()

The loop is embedded with explicit fuel; outOfFuel is never reached for the
fuel budget used by getThreadRoot (proved below).  A parent id that resolves
to no row makes the attribute access root.parent_message raise
RelatedObjectDoesNotExist, modelled as the dangling result. -/

inductive ClimbResult where
  | ok (m : Message)
  | dangling
  | outOfFuel
deriving DecidableEq, Repr

def climbAux : Nat → Store → Message → List Nat → ClimbResult
  | 0, _, _, _ => .outOfFuel
  | fuel + 1, s, root, seen =>
    match root.parentId with
    | none => .ok root
    | some pid =>
      if pid ∈ seen then .ok root
      else
        match findMsg s pid with
        | none => .dangling
        | some p => climbAux fuel s p (root.id :: seen)

/-- Fuel that always suffices for the climb (proved below): the loop adds the
current id to seen on every step and at most one step fails to shrink the set
of unvisited ids before the loop exits. -/
def climbFuelBound (s : Store) : Nat := 2 * s.messages.length + 3

def getThreadRoot (s : Store) (m : Message) : ClimbResult :=
  climbAux (climbFuelBound s) s m []

/-! ### Breadth-first descendant retrieval (Message.get_all_replies)

    descendants = []
    current_ids = [self.id]
    while current_ids:
        children = list(Message.objects.filter(parent_message_id__in=current_ids)
                        .order_by('created_at'))
        if not children:
            break
        descendants.extend(children)
        current_ids = [m.id for m in children]
    return descendants

The while loop has no visited set; it is embedded with fuel and fuel
exhaustion is reported as none.  On acyclic stores the fuel budget below is
proved sufficient; on cyclic stores the loop never finishes (claim C6). -/

/-- One fetch: messages whose parent id is in the frontier, ordered by
created_at ascending. -/
def childrenOf (s : Store) (frontier : List Nat) : List Message :=
  List.insertionSort olderFirst
    (s.messages.filter (fun m =>
      match m.parentId with
      | some p => p ∈ frontier
      | none => false))

def bfsAux : Nat → Store → List Nat → Option (List Message)
  | 0, _, _ => none
  | fuel + 1, s, frontier =>
    let children := childrenOf s frontier
    if children.isEmpty then some []
    else
      match bfsAux fuel s (children.map (fun m => m.id)) with
      | some rest => some (children ++ rest)
      | none => none

/-- An upper bound on every created_at in the store. -/
def maxCreated (s : Store) : Nat :=
  s.messages.foldr (fun m acc => max m.createdAt acc) 0

/-- Fuel that always suffices on acyclic stores (proved below): each BFS
level only contains messages created strictly later than their parents. -/
def bfsFuelBound (s : Store) : Nat := maxCreated s + 2

def getAllReplies (s : Store) (m : Message) : Option (List Message) :=
  bfsAux (bfsFuelBound s) s [m.id]

/-! ### Thread tree assembly (Message.build_thread_tree, models.py)

    root = self.get_thread_messages()[0]
    all_msgs = root.get_thread_messages()      # [root] + root.get_all_replies()
    children_map: parent_id -> children, built from all_msgs[1:] in order,
    each group then sorted (stably) by created_at; serialize(msg) returns
    {id, content, sender, receiver, created_at, edited, replies: [...]}.

Identities are rendered by id here (the view falls back to the raw id when
no username is available).  Building the children map by grouping the
descendant list in order and then stable-sorting each group is the same as
filtering the list per parent and stable-sorting, which is how grp is
written. -/

inductive ThreadNode where
  | node (id : Nat) (content : String) (senderId receiverId : Nat)
      (createdAt : Nat) (edited : Bool) (replies : List ThreadNode)
deriving Repr

def nodeCreatedAt : ThreadNode → Nat
  | .node _ _ _ _ c _ _ => c

def nodeId : ThreadNode → Nat
  | .node i _ _ _ _ _ _ => i

def nodeReplies : ThreadNode → List ThreadNode
  | .node _ _ _ _ _ _ rs => rs

mutual

def countNode : ThreadNode → Nat
  | .node _ _ _ _ _ _ rs => 1 + countNodes rs

def countNodes : List ThreadNode → Nat
  | [] => 0
  | t :: ts => countNode t + countNodes ts

end

/-- Flattened node count of an optional tree (0 for none); used to state
that the assembled tree visits every descendant exactly once. -/
def countOpt : Option ThreadNode → Nat
  | some t => countNode t
  | none => 0

/-- Collect a list of optional results; any failure fails the whole list. -/
def allSome : List (Option α) → Option (List α)
  | [] => some []
  | o :: t => o.bind (fun a => (allSome t).map (fun l => a :: l))

/-- The children map: the group of a parent id within the descendant list L,
sorted by created_at ascending. -/
def grp (L : List Message) (pid : Nat) : List Message :=
  List.insertionSort olderFirst (L.filter (fun c => c.parentId == some pid))

/-- serialize(msg) with explicit fuel for the recursion over the children
map; the fuel budget used by build_thread_tree is proved sufficient on
acyclic stores. -/
def serializeFuel : Nat → (Nat → List Message) → Message → Option ThreadNode
  | 0, _, _ => none
  | fuel + 1, cm, m =>
    match allSome ((cm m.id).map (serializeFuel fuel cm)) with
    | some ns =>
      some (.node m.id m.content m.senderId m.receiverId m.createdAt m.edited ns)
    | none => none

def build_thread_tree (s : Store) (m : Message) : Option ThreadNode :=
  match getThreadRoot s m with
  | .ok root =>
    match getAllReplies s root with
    | some L => serializeFuel (bfsFuelBound s) (grp L) root
    | none => none
  | _ => none

/-! ### Views (views.py) -/

/-- The parsed body of a create_message request: receiver_id, content
(defaulting to the empty string), optional parent_id. -/
structure CreateReq where
  receiverId : Option Nat
  content : String
  parentId : Option Nat
deriving DecidableEq, Repr

/-- Python str.strip(): remove leading and trailing whitespace.  (Defined
over the character list so that it evaluates inside the kernel.) -/
def pyStrip (s : String) : String :=
  ⟨((s.data.dropWhile Char.isWhitespace).reverse.dropWhile Char.isWhitespace).reverse⟩

inductive CreateResult where
  | badRequest
  | notFound
  | created (s : Store) (newId : Nat)
deriving Repr

/-- create_message (views.py): requires receiver_id and non-blank content,
resolves the receiver (400 when absent), resolves parent_id when given
(404 when absent), then creates the message with sender=request.user and
the parent resolved — with no check that the caller participates in the
parent's thread.  The fresh auto pk is passed in as newId. -/
def create_message_view (s : Store) (callerId : Nat) (req : CreateReq)
    (newId : Nat) (now : Nat) : CreateResult :=
  match req.receiverId with
  | none => .badRequest
  | some rid =>
    if pyStrip req.content = "" then .badRequest
    else if rid ∉ s.users then .badRequest
    else
      match req.parentId with
      | none => .created (createMessage s newId callerId rid none req.content now) newId
      | some pid =>
        match findMsg s pid with
        | none => .notFound
        | some pm =>
          .created (createMessage s newId callerId rid (some pm.id) req.content now) newId

inductive ThreadDetailResult where
  | notFound
  | forbidden
  | ok (t : ThreadNode)
  | storeFault
deriving Repr

/-- thread_detail (views.py): 404 when the message is absent; then
root = message.get_thread_messages()[0] is evaluated EAGERLY — per
models.py get_thread_messages returns [root] + root.get_all_replies(), so
the climb AND the full breadth-first fetch of the root's descendants run
before the permission check; only then must the caller be one of
root.sender, root.receiver, message.sender, message.receiver, otherwise
403; on success the nested tree is returned.  A dangling parent reference
(an exception in Django) and fuel exhaustion of the embedding — in
particular the never-terminating breadth-first loop on a cyclic store,
which hangs the request before any response — are storeFault. -/
def thread_detail (s : Store) (callerId : Nat) (messageId : Nat) : ThreadDetailResult :=
  match findMsg s messageId with
  | none => .notFound
  | some m =>
    match getThreadRoot s m with
    | .ok root =>
      match getAllReplies s root with
      | some _ =>
        if callerId = root.senderId ∨ callerId = root.receiverId ∨
           callerId = m.senderId ∨ callerId = m.receiverId then
          match build_thread_tree s m with
          | some t => .ok t
          | none => .storeFault
        else .forbidden
      | none => .storeFault
    | _ => .storeFault

/-! ### Identity deletion (delete_user view + delete_user_related_data signal)

user.delete() runs Django's deletion collector inside one transaction, in
this order (django/db/models/deletion.py, Collector.delete):
 1. collect: every Message whose sender or receiver is the user (CASCADE),
    transitively every reply of a collected message (parent_message is
    CASCADE), every Notification of the user or of a collected message
    (CASCADE), every MessageHistory of a collected message (CASCADE);
    rows merely referencing the user through a SET_NULL editor fk
    (Message.edited_by, MessageHistory.edited_by) are collected for a
    field update instead;
 2. field updates run FIRST: edited_by is set to NULL on every collected
    row;
 3. the collected rows are deleted;
 4. post_delete signals fire: delete_user_related_data (signals.py) runs
    MessageHistory.objects.filter(edited_by=instance).delete() — at this
    point, after step 2, no row still carries that editor id. -/

/-- One closure step of the message cascade: a message whose parent is
already dead dies too. -/
def cascadeStep (s : Store) (dead : List Nat) : List Nat :=
  dead ++
    (s.messages.filter (fun m =>
      !(m.id ∈ dead) &&
        match m.parentId with
        | some p => p ∈ dead
        | none => false)).map (fun m => m.id)

def cascadeIter : Nat → Store → List Nat → List Nat
  | 0, _, dead => dead
  | n + 1, s, dead => cascadeIter n s (cascadeStep s dead)

/-- All message pks removed by deleting user u: those they sent or received,
closed under the reply cascade. -/
def deadMsgIds (s : Store) (u : Nat) : List Nat :=
  cascadeIter s.messages.length s
    ((s.messages.filter (fun m => m.senderId == u || m.receiverId == u)).map (fun m => m.id))

/-- user.delete(): the collector's field updates, then the cascading
deletes, then the post_delete handler delete_user_related_data. -/
def deleteUser (s : Store) (u : Nat) : Store :=
  let dead := deadMsgIds s u
  let msgs1 := s.messages.map (fun m =>
    if m.editedById = some u then { m with editedById := none } else m)
  let hists1 := s.histories.map (fun h =>
    if h.editedById = some u then { h with editedById := none } else h)
  let msgs2 := msgs1.filter (fun m => !(m.id ∈ dead))
  let notifs2 := s.notifications.filter (fun n => !(n.userId == u) && !(n.messageId ∈ dead))
  let hists2 := hists1.filter (fun h => !(h.messageId ∈ dead))
  let hists3 := hists2.filter (fun h => !(h.editedById == some u))
  { users := s.users.filter (fun x => !(x == u)),
    messages := msgs2, notifications := notifs2, histories := hists3 }

/-! ### Concrete stores used as witnesses and counterexamples -/

def mkMsg (i sid rid : Nat) (p : Option Nat) (c : String) (t : Nat) : Message :=
  { id := i, senderId := sid, receiverId := rid, parentId := p, content := c,
    createdAt := t, edited := false, editedAt := none, editedById := none, read := false }

/-- A corrupted store whose two messages point at each other as parents. -/
def cycA : Message := mkMsg 1 7 8 (some 2) "a" 0

def cycB : Message := mkMsg 2 8 7 (some 1) "b" 1

def cyc : Store := { users := [7, 8], messages := [cycA, cycB], notifications := [], histories := [] }

/-- The store of the spec's retention example: user 1 authored messages 10
and 11 and edited message 12, which user 2 sent to user 3. -/
def m10 : Message := mkMsg 10 1 2 none "authored1" 0

def m11 : Message := mkMsg 11 1 3 none "authored2" 1

def m12 : Message := mkMsg 12 2 3 none "edited by u1" 2

def exC1 : Store :=
  { users := [1, 2, 3], messages := [m12, m11, m10],
    notifications := [⟨3, 12, false, 2⟩, ⟨3, 11, false, 1⟩, ⟨2, 10, false, 0⟩],
    histories := [⟨12, "old", 5, some 1⟩, ⟨10, "oldA", 4, some 2⟩] }

/-- A four-message thread: root 1 with children 2 and 3, and 4 under 2. -/
def r1 : Message := mkMsg 1 1 2 none "R" 0

def c1 : Message := mkMsg 2 2 1 (some 1) "C1" 1

def c2 : Message := mkMsg 3 2 1 (some 1) "C2" 2

def c3 : Message := mkMsg 4 1 2 (some 2) "C3" 3

def ex4 : Store := { users := [1, 2], messages := [r1, c1, c2, c3], notifications := [], histories := [] }

end Messaging

namespace Messaging

/-! ## Helper lemmas -/

theorem findMsg_some (s : Store) (pk : Nat) (m : Message) (h : findMsg s pk = some m) :
    m ∈ s.messages ∧ m.id = pk := by
  unfold findMsg at h
  refine ⟨List.mem_of_find?_eq_some h, ?_⟩
  have := List.find?_some h
  simpa using this

theorem eq_of_mem_same_id (s : Store) (hnd : idsNodup s) (a b : Message)
    (ha : a ∈ s.messages) (hb : b ∈ s.messages) (hid : a.id = b.id) : a = b := by
  exact List.inj_on_of_nodup_map hnd ha hb hid

theorem findMsg_of_mem (s : Store) (hnd : idsNodup s) (m : Message)
    (hm : m ∈ s.messages) : findMsg s m.id = some m := by
  have hsome : (s.messages.find? (fun x => x.id = m.id)).isSome := by
    rw [List.find?_isSome]
    exact ⟨m, hm, by simp⟩
  obtain ⟨x, hx⟩ := Option.isSome_iff_exists.mp hsome
  obtain ⟨hxm, hxid⟩ := findMsg_some s m.id x hx
  have hxe : x = m := eq_of_mem_same_id s hnd x m hxm hm hxid
  unfold findMsg
  rw [hxe] at hx
  exact hx

theorem find?_map_replace (l : List Message) (pk : Nat) (v : Message) (hv : v.id = pk)
    (h : (l.find? (fun m => m.id = pk)).isSome) :
    ((l.map (fun m => if m.id = pk then v else m)).find? (fun m => m.id = pk)) = some v := by
  induction l with
  | nil => simp at h
  | cons a t ih =>
    by_cases ha : a.id = pk
    · simp only [List.map_cons, if_pos ha]
      rw [List.find?_cons_of_pos _ (by simpa using hv)]
    · rw [List.find?_cons_of_neg _ (by simpa using ha)] at h
      simp only [List.map_cons, if_neg ha]
      rw [List.find?_cons_of_neg _ (by simpa using ha)]
      exact ih h

theorem saveInstance_notifications (s : Store) (inst : Message) (now : Nat) :
    (saveInstance s inst now).notifications = s.notifications := by
  unfold saveInstance
  split
  · rfl
  · split <;> rfl

theorem saveInstance_users (s : Store) (inst : Message) (now : Nat) :
    (saveInstance s inst now).users = s.users := by
  unfold saveInstance
  split
  · rfl
  · split <;> rfl

theorem editMessage_notifications (s : Store) (pk : Nat) (c : String)
    (e ta : Option Nat) (now : Nat) :
    (editMessage s pk c e ta now).notifications = s.notifications := by
  unfold editMessage
  split
  · rfl
  · rw [saveInstance_notifications]

theorem applyEdits_notifications (ops : List EditOp) : ∀ s : Store,
    (applyEdits s ops).notifications = s.notifications := by
  induction ops with
  | nil => intro s; rfl
  | cons e t ih =>
    intro s
    show (applyEdits (editMessage s e.pk e.content e.editor e.instEditedAt e.now) t).notifications = _
    rw [ih, editMessage_notifications]

theorem saveInstance_changed (s : Store) (inst : Message) (now : Nat) (old : Message)
    (hfind : findMsg s inst.id = some old) (hne : old.content ≠ inst.content) :
    saveInstance s inst now =
      { s with
        histories := { messageId := old.id, oldContent := old.content, editedAt := now,
                       editedById := inst.editedById } :: s.histories,
        messages := s.messages.map (fun m =>
          if m.id = inst.id then
            { inst with
              edited := true,
              editedAt := match inst.editedAt with
                          | none => some now
                          | some t => some t }
          else m) } := by
  unfold saveInstance
  rw [hfind]
  simp only [if_pos hne]

theorem saveInstance_unchanged (s : Store) (inst : Message) (now : Nat) (old : Message)
    (hfind : findMsg s inst.id = some old) (heq : old.content = inst.content) :
    saveInstance s inst now =
      { s with
        messages := s.messages.map (fun m => if m.id = inst.id then inst else m) } := by
  unfold saveInstance
  rw [hfind]
  simp only [ne_eq, heq, not_true_eq_false, if_neg, ite_false]

/-! ## Claim theorems -/

/-- C2: immediately after a message is created there is exactly one
Notification row referencing it — addressed to the message's receiver, with
is_read = false — and that count stays exactly one across any number of
subsequent saves: the post_save handler only creates a notification when
created is true, and no save path ever touches the notification table. -/
theorem notification_exactly_once_per_message (s : Store)
    (newId sid rid : Nat) (pid : Option Nat) (content : String) (now : Nat)
    (edits : List EditOp)
    (hfresh : ∀ n ∈ s.notifications, n.messageId ≠ newId) :
    ((createMessage s newId sid rid pid content now).notifications.filter
        (fun n => n.messageId == newId))
      = [{ userId := rid, messageId := newId, isRead := false, createdAt := now }] ∧
    ((applyEdits (createMessage s newId sid rid pid content now) edits).notifications.filter
        (fun n => n.messageId == newId))
      = [{ userId := rid, messageId := newId, isRead := false, createdAt := now }] := by
  have hkey : ((createMessage s newId sid rid pid content now).notifications.filter
      (fun n => n.messageId == newId))
      = [{ userId := rid, messageId := newId, isRead := false, createdAt := now }] := by
    show (({ userId := rid, messageId := newId, isRead := false, createdAt := now } :
        Notification) :: s.notifications).filter (fun n => n.messageId == newId) = _
    rw [List.filter_cons_of_pos (by simp)]
    congr 1
    rw [List.filter_eq_nil_iff]
    intro n hn
    simpa using hfresh n hn
  exact ⟨hkey, by rw [applyEdits_notifications]; exact hkey⟩

/-- C3: saving an already-persisted message creates a MessageHistory row if
and only if the new content differs from the persisted content; the row
snapshots the persisted content and carries the caller-supplied editor
(possibly null); a content-neutral save creates no row and leaves the edited
flag and edited timestamp of the stored message unchanged. -/
theorem revision_iff_content_changed (s : Store) (pk : Nat) (newContent : String)
    (editor instEditedAt : Option Nat) (now : Nat) (old : Message)
    (hold : findMsg s pk = some old) (hta : instEditedAt = old.editedAt) :
    (old.content ≠ newContent →
      (editMessage s pk newContent editor instEditedAt now).histories
        = { messageId := pk, oldContent := old.content, editedAt := now,
            editedById := editor } :: s.histories) ∧
    (old.content = newContent →
      (editMessage s pk newContent editor instEditedAt now).histories = s.histories ∧
      findMsg (editMessage s pk newContent editor instEditedAt now) pk
        = some { old with content := newContent, editedById := editor }) := by
  obtain ⟨hmem, hid⟩ := findMsg_some s pk old hold
  subst hid
  subst hta
  have hE : editMessage s old.id newContent editor old.editedAt now
      = saveInstance s
          { old with content := newContent, editedById := editor } now := by
    unfold editMessage
    rw [hold]
  constructor
  · intro hne
    rw [hE,
      saveInstance_changed s { old with content := newContent, editedById := editor }
        now old hold hne]
  · intro heq
    rw [hE,
      saveInstance_unchanged s { old with content := newContent, editedById := editor }
        now old hold heq]
    refine ⟨rfl, ?_⟩
    unfold findMsg
    exact find?_map_replace s.messages old.id _ rfl
      (by unfold findMsg at hold; rw [hold]; rfl)

/-- C3 witness: editing root message 1 of ex4 from "R" to "Z" creates the one
revision carrying "R"; re-saving with identical content creates none. -/
theorem revision_iff_content_changed_witness :
    (findMsg ex4 1 = some r1 ∧ (none : Option Nat) = r1.editedAt) ∧
    ((r1.content ≠ "Z" →
      (editMessage ex4 1 "Z" (some 2) none 9).histories
        = [{ messageId := 1, oldContent := r1.content, editedAt := 9, editedById := some 2 }]) ∧
    (r1.content = "Z" →
      (editMessage ex4 1 "Z" (some 2) none 9).histories = ex4.histories ∧
      findMsg (editMessage ex4 1 "Z" (some 2) none 9) 1
        = some { r1 with content := "Z", editedById := some 2 })) :=
  ⟨⟨by decide, by decide⟩,
   revision_iff_content_changed ex4 1 "Z" (some 2) none 9 r1 (by decide) (by decide)⟩

/-- C9: a content-changing save persists edited = true, and the edited
timestamp persisted for that write is exactly the caller-supplied value when
the instance already carried one, or the freshly computed now when it did
not. -/
theorem edit_sets_edited_flag_and_timestamp (s : Store) (pk : Nat) (newContent : String)
    (editor instEditedAt : Option Nat) (now : Nat) (old : Message)
    (hold : findMsg s pk = some old) (hch : old.content ≠ newContent) :
    findMsg (editMessage s pk newContent editor instEditedAt now) pk
      = some { old with
               content := newContent
               editedById := editor
               edited := true
               editedAt := some (instEditedAt.getD now) } := by
  obtain ⟨hmem, hid⟩ := findMsg_some s pk old hold
  subst hid
  have hE : editMessage s old.id newContent editor instEditedAt now
      = saveInstance s
          { old with content := newContent, editedById := editor, editedAt := instEditedAt }
          now := by
    unfold editMessage
    rw [hold]
  rw [hE,
    saveInstance_changed s
      { old with content := newContent, editedById := editor, editedAt := instEditedAt }
      now old hold hch]
  unfold findMsg
  cases instEditedAt with
  | none =>
    exact find?_map_replace s.messages old.id _ rfl
      (by unfold findMsg at hold; rw [hold]; rfl)
  | some t =>
    exact find?_map_replace s.messages old.id _ rfl
      (by unfold findMsg at hold; rw [hold]; rfl)

/-- C9 witness: an edit of message 1 of ex4 with a caller-set edited_at of 42
persists exactly that timestamp, and one without persists now = 9. -/
theorem edit_sets_edited_flag_and_timestamp_witness :
    (findMsg ex4 1 = some r1 ∧ r1.content ≠ "Z") ∧
    findMsg (editMessage ex4 1 "Z" (some 2) (some 42) 9) 1
      = some { r1 with
               content := "Z"
               editedById := some 2
               edited := true
               editedAt := some 42 } ∧
    findMsg (editMessage ex4 1 "Z" (some 2) none 9) 1
      = some { r1 with
               content := "Z"
               editedById := some 2
               edited := true
               editedAt := some 9 } :=
  ⟨⟨by decide, by decide⟩,
   edit_sets_edited_flag_and_timestamp ex4 1 "Z" (some 2) (some 42) 9 r1 (by decide) (by decide),
   edit_sets_edited_flag_and_timestamp ex4 1 "Z" (some 2) none 9 r1 (by decide) (by decide)⟩

/-- C2 witness at a concrete store: creating message 99 in exC1 and then
editing it once leaves exactly the one notification for receiver 2. -/
theorem notification_exactly_once_per_message_witness :
    (∀ n ∈ exC1.notifications, n.messageId ≠ 99) ∧
    (((createMessage exC1 99 1 2 none "hi" 7).notifications.filter
        (fun n => n.messageId == 99))
      = [{ userId := 2, messageId := 99, isRead := false, createdAt := 7 }] ∧
    ((applyEdits (createMessage exC1 99 1 2 none "hi" 7)
        [{ pk := 99, content := "hi2", editor := none, instEditedAt := none, now := 8 }]).notifications.filter
        (fun n => n.messageId == 99))
      = [{ userId := 2, messageId := 99, isRead := false, createdAt := 7 }]) :=
  ⟨by decide,
   notification_exactly_once_per_message exC1 99 1 2 none "hi" 7
     [{ pk := 99, content := "hi2", editor := none, instEditedAt := none, now := 8 }]
     (by decide)⟩

/-- C10: create_message never checks thread participation on the parent.
For every caller, a request with a valid receiver, non-blank content and an
existing parent message succeeds and attaches the reply to that parent, with
sender = the caller — there is no hypothesis about the caller being a
participant of the parent or of its thread. -/
theorem create_reply_skips_thread_participation (s : Store) (caller rid pid newId now : Nat)
    (content : String) (pm : Message)
    (hrid : rid ∈ s.users) (hc : pyStrip content ≠ "") (hp : findMsg s pid = some pm) :
    create_message_view s caller
      { receiverId := some rid, content := content, parentId := some pid } newId now
      = .created (createMessage s newId caller rid (some pm.id) content now) newId ∧
    findMsg (createMessage s newId caller rid (some pm.id) content now) newId
      = some { id := newId, senderId := caller, receiverId := rid
               parentId := some pm.id, content := content, createdAt := now
               edited := false, editedAt := none, editedById := none, read := false } := by
  constructor
  · unfold create_message_view
    dsimp only
    rw [if_neg hc, if_neg (not_not_intro hrid), hp]
  · unfold createMessage findMsg
    rw [List.find?_cons_of_pos _ (by simp)]

/-- C10 witness: user 9 is not a participant anywhere in the thread of parent
message 1 of ex4, yet their reply to it is created and attached. -/
theorem create_reply_skips_thread_participation_witness :
    (2 ∈ ex4.users ∧ (pyStrip "hey" ≠ "") ∧ findMsg ex4 1 = some r1 ∧
      (∀ m ∈ ex4.messages, m.senderId ≠ 9 ∧ m.receiverId ≠ 9)) ∧
    (create_message_view ex4 9
      { receiverId := some 2, content := "hey", parentId := some 1 } 50 7
      = .created (createMessage ex4 50 9 2 (some r1.id) "hey" 7) 50 ∧
    findMsg (createMessage ex4 50 9 2 (some r1.id) "hey" 7) 50
      = some { id := 50, senderId := 9, receiverId := 2
               parentId := some r1.id, content := "hey", createdAt := 7
               edited := false, editedAt := none, editedById := none, read := false }) :=
  ⟨⟨by decide, by decide, by decide, by decide⟩,
   create_reply_skips_thread_participation ex4 9 2 1 50 7 "hey" r1
     (by decide) (by decide) (by decide)⟩

/-- C4: the unread query defined by UnreadMessagesManager (managers.py)
returns exactly the messages whose receiver is the given user and whose read
flag is false, newest first; in particular a message the user sent to
someone else never appears.  (The claim is marked code_bug because this
queryset is unreachable at runtime: models.py never attaches the manager as
Message.unread nor declares the read field, and the view calls for_user
instead of unread_for_user.) -/
theorem unread_query_filters_receiver_and_read (s : Store) (u : Nat) :
    (∀ m, m ∈ unread_for_user s u ↔ m ∈ s.messages ∧ m.receiverId = u ∧ m.read = false) ∧
    List.Sorted newerFirst (unread_for_user s u) := by
  constructor
  · intro m
    unfold unread_for_user
    rw [List.mem_insertionSort, List.mem_filter]
    simp only [Bool.and_eq_true, Bool.not_eq_true', beq_iff_eq]
    constructor
    · rintro ⟨h1, h2, h3⟩; exact ⟨h1, h3, h2⟩
    · rintro ⟨h1, h2, h3⟩; exact ⟨h1, h3, h2⟩
  · exact List.sorted_insertionSort newerFirst _

/-- C4 witness: in a store where user 1 received one read and one unread
message and sent another, the query returns exactly the unread received
one. -/
theorem unread_query_filters_receiver_and_read_witness :
    (∀ m, m ∈ unread_for_user exC1 3 ↔
      m ∈ exC1.messages ∧ m.receiverId = 3 ∧ m.read = false) ∧
    List.Sorted newerFirst (unread_for_user exC1 3) :=
  unread_query_filters_receiver_and_read exC1 3

/-- C1: evaluating user deletion on the spec's own retention example shows
the revision recording user 1 as editor of message 12 (which user 1 neither
sent nor received) SURVIVES the deletion (with its editor reference nulled),
while the cascade correctly removes the authored messages 10 and 11 with
their notifications and revisions: Django runs the SET_NULL field updates
before the post_delete signal, so the handler's
filter(edited_by=instance) matches nothing. -/
theorem user_delete_leaves_editor_revision :
    (deleteUser exC1 1).histories
      = [{ messageId := 12, oldContent := "old", editedAt := 5, editedById := none }] ∧
    (deleteUser exC1 1).messages = [m12] ∧
    (deleteUser exC1 1).notifications
      = [{ userId := 3, messageId := 12, isRead := false, createdAt := 2 }] := by
  refine ⟨?_, ?_, ?_⟩ <;> rfl

/-! ## Termination of the ancestor climb

The loop in get_thread_messages adds the current id to the seen set on every
iteration.  The measure 2 * (number of store ids not yet in seen) +
(2 when the current id is already in seen, else 1) strictly decreases on
every iteration, so the loop always terminates — on every store state, even
cyclic or dangling ones. -/

theorem filter_length_mono (l : List Nat) (p q : Nat → Bool)
    (h : ∀ x, p x = true → q x = true) :
    (l.filter p).length ≤ (l.filter q).length := by
  induction l with
  | nil => simp
  | cons a t ih =>
    by_cases hpa : p a = true
    · rw [List.filter_cons_of_pos hpa, List.filter_cons_of_pos (h a hpa)]
      simpa using ih
    · rw [List.filter_cons_of_neg (by simpa using hpa)]
      by_cases hqa : q a = true
      · rw [List.filter_cons_of_pos hqa]
        exact Nat.le_succ_of_le ih
      · rw [List.filter_cons_of_neg (by simpa using hqa)]
        exact ih

theorem filter_notmem_cons_of_mem (l : List Nat) (a : Nat) (seen : List Nat)
    (ha : a ∈ seen) :
    l.filter (fun i => !(decide (i ∈ a :: seen))) = l.filter (fun i => !(decide (i ∈ seen))) := by
  apply List.filter_congr
  intro x _
  have hx : (x ∈ a :: seen) ↔ (x ∈ seen) := by
    constructor
    · intro hx
      rcases List.mem_cons.mp hx with h | h
      · subst h; exact ha
      · exact h
    · intro hx
      exact List.mem_cons_of_mem _ hx
  rw [decide_eq_decide.mpr hx]

theorem filter_notmem_cons_length_lt (l : List Nat) (a : Nat) (seen : List Nat)
    (hal : a ∈ l) (has : a ∉ seen) :
    (l.filter (fun i => !(decide (i ∈ a :: seen)))).length
      < (l.filter (fun i => !(decide (i ∈ seen)))).length := by
  induction l with
  | nil => simp at hal
  | cons b t ih =>
    by_cases hb : b ∈ seen
    · rw [List.filter_cons_of_neg (by simp [List.mem_cons, hb]),
        List.filter_cons_of_neg (by simp [hb])]
      have hat : a ∈ t := by
        rcases List.mem_cons.mp hal with h | h
        · exact absurd (h ▸ hb) has
        · exact h
      exact ih hat
    · by_cases hba : b = a
      · subst hba
        rw [List.filter_cons_of_neg (by simp), List.filter_cons_of_pos (by simpa using has)]
        have hmono := filter_length_mono t
          (fun i => !(decide (i ∈ b :: seen))) (fun i => !(decide (i ∈ seen)))
          (fun x hx => by
            simp only [Bool.not_eq_true', decide_eq_false_iff_not, List.mem_cons] at hx ⊢
            exact fun hxs => hx (Or.inr hxs))
        simpa using Nat.lt_succ_of_le hmono
      · have hbc : ¬(b ∈ a :: seen) := by
          simp only [List.mem_cons]
          rintro (h | h)
          · exact hba h
          · exact hb h
        rw [List.filter_cons_of_pos (by simpa using hbc),
          List.filter_cons_of_pos (by simpa using hb)]
        have hat : a ∈ t := by
          rcases List.mem_cons.mp hal with h | h
          · exact absurd h.symm hba
          · exact h
        simpa using ih hat

theorem climbAux_not_outOfFuel : ∀ (fuel : Nat) (s : Store) (root : Message) (seen : List Nat),
    root ∈ s.messages →
    2 * ((s.messages.map (fun m => m.id)).filter (fun i => !(decide (i ∈ seen)))).length
      + (if root.id ∈ seen then 2 else 1) ≤ fuel →
    climbAux fuel s root seen ≠ .outOfFuel := by
  intro fuel
  induction fuel with
  | zero =>
    intro s root seen hmem hbound
    exfalso
    split at hbound <;> omega
  | succ n ih =>
    intro s root seen hmem hbound
    show climbAux (n + 1) s root seen ≠ .outOfFuel
    unfold climbAux
    cases hp : root.parentId with
    | none => simp
    | some pid =>
      by_cases hseen : pid ∈ seen
      · simp [hseen]
      · simp only [if_neg hseen]
        cases hf : findMsg s pid with
        | none => simp
        | some p =>
          simp only []
          obtain ⟨hpmem, hpid⟩ := findMsg_some s pid p hf
          apply ih s p (root.id :: seen) hpmem
          by_cases hrs : root.id ∈ seen
          · rw [filter_notmem_cons_of_mem _ _ _ hrs]
            have hps : ¬(p.id ∈ root.id :: seen) := by
              simp only [List.mem_cons, hpid]
              rintro (h | h)
              · exact hseen (h ▸ hrs)
              · exact hseen h
            rw [if_pos hrs] at hbound
            rw [if_neg hps]
            omega
          · have hlt := filter_notmem_cons_length_lt
              (s.messages.map (fun m => m.id)) root.id seen
              (List.mem_map_of_mem _ hmem) hrs
            rw [if_neg hrs] at hbound
            split <;> omega

theorem closedStore_resolve (s : Store) (hcl : ClosedStore s) (m : Message)
    (hm : m ∈ s.messages) (pid : Nat) (hpid : m.parentId = some pid) :
    ∃ p, p ∈ s.messages ∧ p.id = pid := by
  unfold ClosedStore closedStoreB at hcl
  rw [List.all_eq_true] at hcl
  have h := hcl m hm
  rw [hpid] at h
  simp only [List.any_eq_true, beq_iff_eq] at h
  obtain ⟨p, hp, hpe⟩ := h
  exact ⟨p, hp, hpe⟩

theorem climbAux_ok_of_closed : ∀ (fuel : Nat) (s : Store) (root : Message) (seen : List Nat),
    ClosedStore s →
    root ∈ s.messages →
    2 * ((s.messages.map (fun m => m.id)).filter (fun i => !(decide (i ∈ seen)))).length
      + (if root.id ∈ seen then 2 else 1) ≤ fuel →
    ∃ r, climbAux fuel s root seen = .ok r ∧ r ∈ s.messages := by
  intro fuel
  induction fuel with
  | zero =>
    intro s root seen hcl hmem hbound
    exfalso
    split at hbound <;> omega
  | succ n ih =>
    intro s root seen hcl hmem hbound
    show ∃ r, climbAux (n + 1) s root seen = .ok r ∧ r ∈ s.messages
    unfold climbAux
    cases hp : root.parentId with
    | none => exact ⟨root, rfl, hmem⟩
    | some pid =>
      by_cases hseen : pid ∈ seen
      · simp only [if_pos hseen]
        exact ⟨root, rfl, hmem⟩
      · simp only [if_neg hseen]
        cases hf : findMsg s pid with
        | none =>
          exfalso
          obtain ⟨p, hpmem, hpe⟩ := closedStore_resolve s hcl root hmem pid hp
          have : (s.messages.find? (fun x => x.id = pid)).isSome := by
            rw [List.find?_isSome]
            exact ⟨p, hpmem, by simp [hpe]⟩
          rw [show s.messages.find? (fun x => x.id = pid) = findMsg s pid from rfl, hf] at this
          simp at this
        | some p =>
          simp only []
          obtain ⟨hpmem, hpid⟩ := findMsg_some s pid p hf
          apply ih s p (root.id :: seen) hcl hpmem
          by_cases hrs : root.id ∈ seen
          · rw [filter_notmem_cons_of_mem _ _ _ hrs]
            have hps : ¬(p.id ∈ root.id :: seen) := by
              simp only [List.mem_cons, hpid]
              rintro (h | h)
              · exact hseen (h ▸ hrs)
              · exact hseen h
            rw [if_pos hrs] at hbound
            rw [if_neg hps]
            omega
          · have hlt := filter_notmem_cons_length_lt
              (s.messages.map (fun m => m.id)) root.id seen
              (List.mem_map_of_mem _ hmem) hrs
            rw [if_neg hrs] at hbound
            split <;> omega

theorem climb_initial_bound (s : Store) (m : Message) :
    2 * ((s.messages.map (fun x => x.id)).filter
          (fun i => !(decide (i ∈ ([] : List Nat))))).length
      + (if m.id ∈ ([] : List Nat) then 2 else 1) ≤ climbFuelBound s := by
  have h1 : ((s.messages.map (fun x => x.id)).filter
      (fun i => !(decide (i ∈ ([] : List Nat))))).length ≤ s.messages.length := by
    calc ((s.messages.map (fun x => x.id)).filter _).length
        ≤ (s.messages.map (fun x => x.id)).length := List.length_filter_le _ _
      _ = s.messages.length := List.length_map _ _
  have h2 : (if m.id ∈ ([] : List Nat) then 2 else 1) = 1 := by simp
  unfold climbFuelBound
  omega

/-! ## Termination of the breadth-first descendant fetch on acyclic stores -/

theorem foldr_max_createdAt_bound (l : List Message) (m : Message) (hm : m ∈ l) :
    m.createdAt ≤ l.foldr (fun x acc => max x.createdAt acc) 0 := by
  induction l with
  | nil => simp at hm
  | cons a t ih =>
    rcases List.mem_cons.mp hm with h | h
    · subst h
      exact Nat.le_max_left _ _
    · exact Nat.le_trans (ih h) (Nat.le_max_right _ _)

theorem maxCreated_bound (s : Store) (m : Message) (hm : m ∈ s.messages) :
    m.createdAt ≤ maxCreated s :=
  foldr_max_createdAt_bound s.messages m hm

theorem parentsPrecede_resolve (s : Store) (hpp : ParentsPrecede s) (m : Message)
    (hm : m ∈ s.messages) (pid : Nat) (hpid : m.parentId = some pid) :
    ∃ p, p ∈ s.messages ∧ p.id = pid ∧ p.createdAt < m.createdAt := by
  unfold ParentsPrecede parentsPrecedeB at hpp
  rw [List.all_eq_true] at hpp
  have h := hpp m hm
  rw [hpid] at h
  simp only [List.any_eq_true, Bool.and_eq_true, beq_iff_eq, decide_eq_true_eq] at h
  obtain ⟨p, hp, hpe, hplt⟩ := h
  exact ⟨p, hp, hpe, hplt⟩

theorem childrenOf_mem (s : Store) (frontier : List Nat) (c : Message)
    (hc : c ∈ childrenOf s frontier) :
    c ∈ s.messages ∧ ∃ pid, c.parentId = some pid ∧ pid ∈ frontier := by
  unfold childrenOf at hc
  rw [List.mem_insertionSort, List.mem_filter] at hc
  obtain ⟨hmem, hcond⟩ := hc
  refine ⟨hmem, ?_⟩
  cases hp : c.parentId with
  | none => rw [hp] at hcond; simp at hcond
  | some pid =>
    rw [hp] at hcond
    simp only [decide_eq_true_eq] at hcond
    exact ⟨pid, rfl, hcond⟩

theorem bfsAux_some_of_acyclic (s : Store) (hpp : ParentsPrecede s) (hnd : idsNodup s) :
    ∀ (fuel b : Nat) (frontier : List Nat),
    (∀ pid ∈ frontier, ∀ p, p ∈ s.messages → p.id = pid → b ≤ p.createdAt) →
    (∃ pid ∈ frontier, ∃ p, p ∈ s.messages ∧ p.id = pid) →
    maxCreated s + 2 ≤ fuel + b →
    ∃ out, bfsAux fuel s frontier = some out := by
  intro fuel
  induction fuel with
  | zero =>
    intro b frontier hlow hwit hfuel
    exfalso
    obtain ⟨pid, hpidf, p, hpmem, hpe⟩ := hwit
    have h1 : b ≤ p.createdAt := hlow pid hpidf p hpmem hpe
    have h2 : p.createdAt ≤ maxCreated s := maxCreated_bound s p hpmem
    omega
  | succ n ih =>
    intro b frontier hlow hwit hfuel
    show ∃ out, bfsAux (n + 1) s frontier = some out
    unfold bfsAux
    by_cases hempty : (childrenOf s frontier).isEmpty
    · exact ⟨[], by simp [hempty]⟩
    · simp only [hempty, Bool.false_eq_true, if_false]
      have hne : childrenOf s frontier ≠ [] := by
        intro h
        rw [h] at hempty
        simp at hempty
      obtain ⟨c, hcmem⟩ := List.exists_mem_of_ne_nil _ hne
      have hstep : ∀ x ∈ childrenOf s frontier, b + 1 ≤ x.createdAt := by
        intro x hx
        obtain ⟨hxmem, pid, hxp, hxf⟩ := childrenOf_mem s frontier x hx
        obtain ⟨par, hparmem, hpare, hparlt⟩ := parentsPrecede_resolve s hpp x hxmem pid hxp
        have : b ≤ par.createdAt := hlow pid hxf par hparmem hpare
        omega
      have hrec := ih (b + 1) ((childrenOf s frontier).map (fun m => m.id))
        (by
          intro pid hpidf p hpmem hpe
          obtain ⟨x, hx, hxe⟩ := List.mem_map.mp hpidf
          have hxmem := (childrenOf_mem s frontier x hx).1
          have : p = x := eq_of_mem_same_id s hnd p x hpmem hxmem (by rw [hpe, hxe])
          rw [this]
          exact hstep x hx)
        (by
          refine ⟨c.id, List.mem_map_of_mem _ hcmem, c, (childrenOf_mem s frontier c hcmem).1, rfl⟩)
        (by omega)
      obtain ⟨rest, hrest⟩ := hrec
      exact ⟨childrenOf s frontier ++ rest, by rw [hrest]⟩

/-- On the cyclic store the BFS frontier alternates between [1] and [2]
forever: no fuel is ever enough (the embedded loop models a Python while
loop that never exits). -/
theorem bfs_cyc_stuck : ∀ fuel, bfsAux fuel cyc [1] = none ∧ bfsAux fuel cyc [2] = none := by
  intro fuel
  induction fuel with
  | zero => exact ⟨rfl, rfl⟩
  | succ n ih =>
    constructor
    · show bfsAux (n + 1) cyc [1] = none
      unfold bfsAux
      have h1 : childrenOf cyc [1] = [cycB] := by decide
      rw [h1]
      simp only [List.isEmpty_cons, if_false]
      have h2 : ([cycB].map (fun m => m.id)) = [2] := by decide
      rw [h2, ih.2]
      rfl
    · show bfsAux (n + 1) cyc [2] = none
      unfold bfsAux
      have h1 : childrenOf cyc [2] = [cycA] := by decide
      rw [h1]
      simp only [List.isEmpty_cons, if_false]
      have h2 : ([cycA].map (fun m => m.id)) = [1] := by decide
      rw [h2, ih.1]
      rfl

/-- C5 counterexample: on the cyclic store the upward walk does NOT fail
with any error — it silently returns message 2, which is not a root (its
parent reference is still set).  The claim says a repeated id raises a
ConsistencyViolation. -/
theorem cycle_climb_returns_nonroot_without_error :
    getThreadRoot cyc cycA = .ok cycB ∧ cycB.parentId = some 1 := by
  exact ⟨by decide, rfl⟩

/-- C5 (amended): on every store in which parent references resolve —
including stores whose parent chain contains a repeated id — the upward walk
terminates thanks to its visited-id tracking and returns a message of the
store without raising any error; the result can be a non-root message (the
one at which the repeat was detected). -/
theorem cycle_climb_terminates_ok (s : Store) (m : Message)
    (hcl : ClosedStore s) (hm : m ∈ s.messages) :
    ∃ r, getThreadRoot s m = .ok r ∧ r ∈ s.messages := by
  unfold getThreadRoot
  exact climbAux_ok_of_closed (climbFuelBound s) s m [] hcl hm (climb_initial_bound s m)

/-- C5 witness: the amended statement applied to the cyclic two-message
store. -/
theorem cycle_climb_terminates_ok_witness :
    (ClosedStore cyc ∧ cycA ∈ cyc.messages) ∧
    (∃ r, getThreadRoot cyc cycA = .ok r ∧ r ∈ cyc.messages) :=
  ⟨⟨by decide, by decide⟩, cycle_climb_terminates_ok cyc cycA (by decide) (by decide)⟩

/-- C6 counterexample: the breadth-first descendant retrieval has no visited
set; on the two-message cyclic store it is still running after 1000
iterations of a loop whose store has only 2 rows (bfs_cyc_stuck shows the
frontier alternates forever), so the claim that every read-side traversal is
cycle-guarded and terminates is false. -/
theorem bfs_unguarded_fuel_exhausted_on_cycle :
    bfsAux 1000 cyc [1] = none ∧ cyc.messages.length = 2 :=
  ⟨(bfs_cyc_stuck 1000).1, rfl⟩

/-- C6 (amended): the upward ancestor walk is visited-set guarded and
terminates on every store state, even cyclic or dangling ones; the
breadth-first descendant retrieval has no cycle guard — it terminates on
stores satisfying the parents-precede-children invariant (acyclic by
construction), but iterates unboundedly on a cyclic store. -/
theorem traversal_termination_guards :
    (∀ (s : Store) (m : Message), m ∈ s.messages →
      getThreadRoot s m ≠ .outOfFuel) ∧
    (∀ (s : Store) (m : Message), ParentsPrecede s → idsNodup s → m ∈ s.messages →
      ∃ l, getAllReplies s m = some l) := by
  constructor
  · intro s m hm
    unfold getThreadRoot
    exact climbAux_not_outOfFuel (climbFuelBound s) s m [] hm (climb_initial_bound s m)
  · intro s m hpp hnd hm
    unfold getAllReplies
    apply bfsAux_some_of_acyclic s hpp hnd (bfsFuelBound s) m.createdAt [m.id]
    · intro pid hpid p hpmem hpe
      have : pid = m.id := by simpa using hpid
      subst this
      have : p = m := eq_of_mem_same_id s hnd p m hpmem hm hpe
      rw [this]
    · exact ⟨m.id, by simp, m, hm, rfl⟩
    · have := maxCreated_bound s m hm
      unfold bfsFuelBound
      omega

/-- C6 witness: the guarded climb terminates on the cyclic store, and the
unguarded BFS terminates on the acyclic four-message thread store. -/
theorem traversal_termination_guards_witness :
    (cycA ∈ cyc.messages ∧ getThreadRoot cyc cycA ≠ .outOfFuel) ∧
    (ParentsPrecede ex4 ∧ idsNodup ex4 ∧ r1 ∈ ex4.messages ∧
      ∃ l, getAllReplies ex4 r1 = some l) :=
  ⟨⟨by decide, traversal_termination_guards.1 cyc cycA (by decide)⟩,
   ⟨by decide, by decide, by decide,
    traversal_termination_guards.2 ex4 r1 (by decide) (by decide) (by decide)⟩⟩

/-! ## Characterization of the breadth-first descendant list (claim C7) -/

theorem upSteps_add (s : Store) (a : Nat) : ∀ (b pk : Nat),
    upSteps s (a + b) pk = (upSteps s a pk).bind (upSteps s b) := by
  induction a with
  | zero =>
    intro b pk
    simp [upSteps]
  | succ a ih =>
    intro b pk
    have h1 : a + 1 + b = (a + b) + 1 := by omega
    rw [h1]
    show (parentOf s pk).bind (upSteps s (a + b)) = _
    cases hpo : parentOf s pk with
    | none => simp [upSteps, hpo]
    | some q => simp [upSteps, hpo, ih]

theorem parentOf_mem (s : Store) (hnd : idsNodup s) (m : Message) (hm : m ∈ s.messages) :
    parentOf s m.id = m.parentId := by
  unfold parentOf
  rw [findMsg_of_mem s hnd m hm]
  rfl

theorem upSteps_root_ne (s : Store) (rootId : Nat) (hroot : parentOf s rootId = none)
    (e : Nat) (he : 1 ≤ e) : upSteps s e rootId ≠ some rootId := by
  cases e with
  | zero => omega
  | succ e' =>
    show (parentOf s rootId).bind (upSteps s e') ≠ some rootId
    rw [hroot]
    simp

theorem bfsAux_sub (s : Store) : ∀ (fuel : Nat) (frontier : List Nat) (out : List Message),
    bfsAux fuel s frontier = some out → ∀ c ∈ out, c ∈ s.messages := by
  intro fuel
  induction fuel with
  | zero => intro frontier out h; simp [bfsAux] at h
  | succ n ih =>
    intro frontier out h c hc
    unfold bfsAux at h
    by_cases hempty : (childrenOf s frontier).isEmpty
    · simp only [hempty, if_true] at h
      have hout : out = [] := by
        simpa using h.symm
      rw [hout] at hc
      simp at hc
    · simp only [hempty, Bool.false_eq_true, if_false] at h
      cases hrest : bfsAux n s ((childrenOf s frontier).map (fun m => m.id)) with
      | none => rw [hrest] at h; simp at h
      | some rest =>
        rw [hrest] at h
        simp only [Option.some.injEq] at h
        rw [← h] at hc
        rcases List.mem_append.mp hc with hcc | hcr
        · exact (childrenOf_mem s frontier c hcc).1
        · exact ih _ rest hrest c hcr

theorem bfsAux_mem (s : Store) : ∀ (fuel : Nat) (frontier : List Nat) (out : List Message),
    bfsAux fuel s frontier = some out →
    ∀ c, c ∈ s.messages → ∀ pid, c.parentId = some pid → pid ∈ frontier → c ∈ out := by
  intro fuel
  induction fuel with
  | zero => intro frontier out h; simp [bfsAux] at h
  | succ n ih =>
    intro frontier out h c hcmem pid hcp hpidf
    have hcc : c ∈ childrenOf s frontier := by
      unfold childrenOf
      rw [List.mem_insertionSort, List.mem_filter]
      refine ⟨hcmem, ?_⟩
      rw [hcp]
      simpa using hpidf
    unfold bfsAux at h
    by_cases hempty : (childrenOf s frontier).isEmpty
    · rw [List.isEmpty_iff] at hempty
      rw [hempty] at hcc
      simp at hcc
    · simp only [hempty, Bool.false_eq_true, if_false] at h
      cases hrest : bfsAux n s ((childrenOf s frontier).map (fun m => m.id)) with
      | none => rw [hrest] at h; simp at h
      | some rest =>
        rw [hrest] at h
        simp only [Option.some.injEq] at h
        rw [← h]
        exact List.mem_append.mpr (Or.inl hcc)

theorem bfsAux_closed (s : Store) : ∀ (fuel : Nat) (frontier : List Nat) (out : List Message),
    bfsAux fuel s frontier = some out →
    ∀ p ∈ out, ∀ c, c ∈ s.messages → c.parentId = some p.id → c ∈ out := by
  intro fuel
  induction fuel with
  | zero => intro frontier out h; simp [bfsAux] at h
  | succ n ih =>
    intro frontier out h p hp c hcmem hcp
    unfold bfsAux at h
    by_cases hempty : (childrenOf s frontier).isEmpty
    · simp only [hempty, if_true] at h
      have hout : out = [] := by
        simpa using h.symm
      rw [hout] at hp
      simp at hp
    · simp only [hempty, Bool.false_eq_true, if_false] at h
      cases hrest : bfsAux n s ((childrenOf s frontier).map (fun m => m.id)) with
      | none => rw [hrest] at h; simp at h
      | some rest =>
        rw [hrest] at h
        simp only [Option.some.injEq] at h
        rw [← h] at hp ⊢
        rcases List.mem_append.mp hp with hpc | hpr
        · refine List.mem_append.mpr (Or.inr ?_)
          exact bfsAux_mem s n _ rest hrest c hcmem p.id hcp
            (List.mem_map_of_mem _ hpc)
        · exact List.mem_append.mpr (Or.inr (ih _ rest hrest p hpr c hcmem hcp))

theorem upSteps_one (s : Store) (pk : Nat) : upSteps s 1 pk = parentOf s pk := by
  show (parentOf s pk).bind (upSteps s 0) = parentOf s pk
  cases hpo : parentOf s pk <;> simp [upSteps]

theorem childrenOf_ids_nodup (s : Store) (hnd : idsNodup s) (frontier : List Nat) :
    ((childrenOf s frontier).map (fun m => m.id)).Nodup := by
  have hperm : List.Perm (childrenOf s frontier) (s.messages.filter (fun m =>
      match m.parentId with
      | some p => decide (p ∈ frontier)
      | none => false)) := List.perm_insertionSort _ _
  have hsub : ((s.messages.filter (fun m =>
      match m.parentId with
      | some p => decide (p ∈ frontier)
      | none => false)).map (fun m => m.id)).Nodup := by
    refine List.Nodup.sublist (List.Sublist.map _ (List.filter_sublist _)) hnd
  exact ((hperm.map (fun m => m.id)).nodup_iff).mpr hsub

theorem childrenOf_depth (s : Store) (hnd : idsNodup s) (rootId : Nat)
    (frontier : List Nat) (d : Nat)
    (hfr : ∀ pid ∈ frontier, upSteps s d pid = some rootId) :
    ∀ c ∈ childrenOf s frontier, upSteps s (d + 1) c.id = some rootId := by
  intro c hc
  obtain ⟨hcmem, pid, hcp, hpidf⟩ := childrenOf_mem s frontier c hc
  have h1 : d + 1 = 1 + d := by omega
  rw [h1, upSteps_add s 1 d c.id, upSteps_one, parentOf_mem s hnd c hcmem, hcp]
  simpa using hfr pid hpidf

theorem bfs_nodup_depth (s : Store) (hnd : idsNodup s) (rootId : Nat)
    (hroot : parentOf s rootId = none) :
    ∀ (fuel : Nat) (frontier : List Nat) (d : Nat) (out : List Message),
    bfsAux fuel s frontier = some out →
    (∀ pid ∈ frontier, upSteps s d pid = some rootId) →
    (out.map (fun m => m.id)).Nodup ∧
    (∀ c ∈ out, ∃ e, 1 ≤ e ∧ upSteps s (d + e) c.id = some rootId) := by
  intro fuel
  induction fuel with
  | zero => intro frontier d out h; simp [bfsAux] at h
  | succ n ih =>
    intro frontier d out h hfr
    unfold bfsAux at h
    by_cases hempty : (childrenOf s frontier).isEmpty
    · simp only [hempty, if_true] at h
      have hout : out = [] := by simpa using h.symm
      subst hout
      exact ⟨by simp, by simp⟩
    · simp only [hempty, Bool.false_eq_true, if_false] at h
      cases hrest : bfsAux n s ((childrenOf s frontier).map (fun m => m.id)) with
      | none => rw [hrest] at h; simp at h
      | some rest =>
        rw [hrest] at h
        simp only [Option.some.injEq] at h
        subst h
        have hchd := childrenOf_depth s hnd rootId frontier d hfr
        obtain ⟨hrnd, hrdepth⟩ := ih ((childrenOf s frontier).map (fun m => m.id)) (d + 1) rest
          hrest
          (by
            intro pid hpid
            obtain ⟨c, hc, hce⟩ := List.mem_map.mp hpid
            rw [← hce]
            exact hchd c hc)
        constructor
        · rw [List.map_append]
          refine List.Nodup.append (childrenOf_ids_nodup s hnd frontier) hrnd ?_
          intro x hx1 hx2
          obtain ⟨c, hc, hce⟩ := List.mem_map.mp hx1
          obtain ⟨r, hr, hre⟩ := List.mem_map.mp hx2
          obtain ⟨e, he1, he2⟩ := hrdepth r hr
          have hcd : upSteps s (d + 1) x = some rootId := by
            rw [← hce]; exact hchd c hc
          have hrd : upSteps s ((d + 1) + e) x = some rootId := by
            rw [← hre]
            exact he2
          rw [upSteps_add s (d + 1) e x, hcd] at hrd
          simp only [Option.some_bind] at hrd
          exact upSteps_root_ne s rootId hroot e he1 hrd
        · intro c hc
          rcases List.mem_append.mp hc with hcc | hcr
          · exact ⟨1, Nat.le_refl 1, hchd c hcc⟩
          · obtain ⟨e, he1, he2⟩ := hrdepth c hcr
            refine ⟨1 + e, by omega, ?_⟩
            have : d + (1 + e) = (d + 1) + e := by omega
            rw [this]
            exact he2

theorem bfs_complete (s : Store) (hnd : idsNodup s) (fuel : Nat) (R : Message)
    (hR : R ∈ s.messages) (out : List Message)
    (hout : bfsAux fuel s [R.id] = some out) :
    ∀ (e : Nat) (m : Message), 1 ≤ e → m ∈ s.messages →
      upSteps s e m.id = some R.id → m ∈ out := by
  intro e
  induction e with
  | zero => intro m h1; omega
  | succ e' ih =>
    intro m _ hm hup
    have hup' : (parentOf s m.id).bind (upSteps s e') = some R.id := hup
    cases hpo : parentOf s m.id with
    | none => rw [hpo] at hup'; simp at hup'
    | some q =>
      rw [hpo] at hup'
      simp only [Option.some_bind] at hup'
      have hmp : m.parentId = some q := by
        rw [← parentOf_mem s hnd m hm]
        exact hpo
      cases Nat.eq_zero_or_pos e' with
      | inl h0 =>
        subst h0
        have hqr : q = R.id := by simpa [upSteps] using hup'
        subst hqr
        exact bfsAux_mem s fuel _ out hout m hm R.id hmp (by simp)
      | inr hpos =>
        have hq : ∃ p, findMsg s q = some p := by
          cases e' with
          | zero => omega
          | succ e'' =>
            have h2 : (parentOf s q).bind (upSteps s e'') = some R.id := hup'
            cases hpq : parentOf s q with
            | none => rw [hpq] at h2; simp at h2
            | some z =>
              unfold parentOf at hpq
              cases hfq : findMsg s q with
              | none => rw [hfq] at hpq; simp at hpq
              | some p => exact ⟨p, rfl⟩
        obtain ⟨p, hp⟩ := hq
        obtain ⟨hpmem, hpid⟩ := findMsg_some s q p hp
        have hpout : p ∈ out := ih p hpos hpmem (by rw [hpid]; exact hup')
        exact bfsAux_closed s fuel _ out hout p hpout m hm (by rw [hmp, hpid])

/-! ## The serializer: fuel adequacy, and the node count of the tree -/

theorem countNodes_eq_sum : ∀ rs : List ThreadNode, countNodes rs = (rs.map countNode).sum := by
  intro rs
  induction rs with
  | nil => rfl
  | cons t ts ih =>
    show countNode t + countNodes ts = _
    rw [ih]
    simp

theorem countNode_node (i : Nat) (c : String) (si ri ca : Nat) (e : Bool)
    (rs : List ThreadNode) :
    countNode (.node i c si ri ca e rs) = 1 + (rs.map countNode).sum := by
  show 1 + countNodes rs = _
  rw [countNodes_eq_sum]

theorem allSome_map_some {α β : Type} (l : List α) (f : α → Option β)
    (h : ∀ a ∈ l, ∃ b, f a = some b) : ∃ ns, allSome (l.map f) = some ns := by
  induction l with
  | nil => exact ⟨[], rfl⟩
  | cons a t ih =>
    obtain ⟨b, hb⟩ := h a (by simp)
    obtain ⟨ns, hns⟩ := ih (fun x hx => h x (by simp [hx]))
    refine ⟨b :: ns, ?_⟩
    show allSome (f a :: t.map f) = some (b :: ns)
    unfold allSome
    rw [hb, hns]
    rfl

theorem allSome_map_ext {α β : Type} (l : List α) (f g : α → Option β)
    (hfg : ∀ a ∈ l, ∀ b, f a = some b → g a = some b) :
    ∀ ns, allSome (l.map f) = some ns → allSome (l.map g) = some ns := by
  induction l with
  | nil => intro ns h; simpa using h
  | cons a t ih =>
    intro ns h
    rw [show (a :: t).map f = f a :: t.map f from rfl] at h
    unfold allSome at h
    cases hfa : f a with
    | none => rw [hfa] at h; simp at h
    | some b =>
      rw [hfa] at h
      simp only [Option.some_bind] at h
      cases hrest : allSome (t.map f) with
      | none => rw [hrest] at h; simp at h
      | some ns' =>
        rw [hrest] at h
        simp only [Option.map_some', Option.some.injEq] at h
        have hga := hfg a (by simp) b hfa
        have hgt := ih (fun x hx b hb => hfg x (by simp [hx]) b hb) ns' hrest
        show allSome (g a :: t.map g) = some ns
        unfold allSome
        rw [hga, hgt, ← h]
        rfl

theorem allSome_forall₂ {α β : Type} (l : List α) (f : α → Option β) :
    ∀ ns, allSome (l.map f) = some ns → List.Forall₂ (fun a b => f a = some b) l ns := by
  induction l with
  | nil =>
    intro ns h
    have h2 : ns = [] := by
      have h3 : (some ([] : List β) : Option (List β)) = some ns := h
      simpa using h3.symm
    subst h2
    exact List.Forall₂.nil
  | cons a t ih =>
    intro ns h
    rw [show (a :: t).map f = f a :: t.map f from rfl] at h
    unfold allSome at h
    cases hfa : f a with
    | none => rw [hfa] at h; simp at h
    | some b =>
      rw [hfa] at h
      simp only [Option.some_bind] at h
      cases hrest : allSome (t.map f) with
      | none => rw [hrest] at h; simp at h
      | some ns' =>
        rw [hrest] at h
        simp only [Option.map_some', Option.some.injEq] at h
        rw [← h]
        exact List.Forall₂.cons hfa (ih ns' hrest)

theorem ser_fuel_succ : ∀ (fuel : Nat) (cm : Nat → List Message) (m : Message) (t : ThreadNode),
    serializeFuel fuel cm m = some t → serializeFuel (fuel + 1) cm m = some t := by
  intro fuel
  induction fuel with
  | zero => intro cm m t h; simp [serializeFuel] at h
  | succ n ih =>
    intro cm m t h
    unfold serializeFuel at h ⊢
    cases hall : allSome ((cm m.id).map (serializeFuel n cm)) with
    | none => rw [hall] at h; simp at h
    | some ns =>
      rw [hall] at h
      have hall2 := allSome_map_ext (cm m.id) (serializeFuel n cm) (serializeFuel (n + 1) cm)
        (fun a _ b hb => ih cm a b hb) ns hall
      rw [hall2]
      exact h

theorem grp_mem (L : List Message) (pid : Nat) (k : Message) (hk : k ∈ grp L pid) :
    k ∈ L ∧ k.parentId = some pid := by
  unfold grp at hk
  rw [List.mem_insertionSort, List.mem_filter] at hk
  refine ⟨hk.1, ?_⟩
  have := hk.2
  simpa using this

theorem ser_some (s : Store) (hnd : idsNodup s) (hpp : ParentsPrecede s)
    (L : List Message) (hsub : ∀ x ∈ L, x ∈ s.messages) :
    ∀ (fuel : Nat) (m : Message), m ∈ s.messages →
    maxCreated s + 1 ≤ fuel + m.createdAt →
    ∃ t, serializeFuel fuel (grp L) m = some t := by
  intro fuel
  induction fuel with
  | zero =>
    intro m hm hb
    exfalso
    have := maxCreated_bound s m hm
    omega
  | succ n ih =>
    intro m hm hb
    have hkids : ∀ k ∈ grp L m.id, ∃ t, serializeFuel n (grp L) k = some t := by
      intro k hk
      obtain ⟨hkL, hkp⟩ := grp_mem L m.id k hk
      have hkmem : k ∈ s.messages := hsub k hkL
      obtain ⟨p, hpmem, hpe, hplt⟩ := parentsPrecede_resolve s hpp k hkmem m.id hkp
      have hpm : p = m := eq_of_mem_same_id s hnd p m hpmem hm hpe
      rw [hpm] at hplt
      exact ih k hkmem (by omega)
    obtain ⟨ns, hns⟩ := allSome_map_some (grp L m.id) (serializeFuel n (grp L)) hkids
    refine ⟨.node m.id m.content m.senderId m.receiverId m.createdAt m.edited ns, ?_⟩
    unfold serializeFuel
    rw [hns]

theorem sum_map_forall₂ {l : List Message} {ns : List ThreadNode} (w : Message → Nat)
    (h : List.Forall₂ (fun a b => w a = countNode b) l ns) :
    (ns.map countNode).sum = (l.map w).sum := by
  induction h with
  | nil => rfl
  | cons hab _ ih =>
    simp only [List.map_cons, List.sum_cons, ih, hab]

theorem ser_count_rec (s : Store) (hnd : idsNodup s) (hpp : ParentsPrecede s)
    (L : List Message) (hsub : ∀ x ∈ L, x ∈ s.messages)
    (m : Message) (hm : m ∈ s.messages) :
    countOpt (serializeFuel (bfsFuelBound s) (grp L) m)
      = 1 + ((grp L m.id).map
          (fun c => countOpt (serializeFuel (bfsFuelBound s) (grp L) c))).sum := by
  have hkid : ∀ k ∈ grp L m.id, ∃ t, serializeFuel (maxCreated s + 1) (grp L) k = some t := by
    intro k hk
    obtain ⟨hkL, _⟩ := grp_mem L m.id k hk
    exact ser_some s hnd hpp L hsub (maxCreated s + 1) k (hsub k hkL) (by omega)
  obtain ⟨ns, hns⟩ := allSome_map_some (grp L m.id) (serializeFuel (maxCreated s + 1) (grp L)) hkid
  have hf₂ := allSome_forall₂ (grp L m.id) (serializeFuel (maxCreated s + 1) (grp L)) ns hns
  have hLHS : serializeFuel (bfsFuelBound s) (grp L) m
      = some (.node m.id m.content m.senderId m.receiverId m.createdAt m.edited ns) := by
    have hfb : bfsFuelBound s = (maxCreated s + 1) + 1 := by
      unfold bfsFuelBound
      omega
    rw [hfb]
    unfold serializeFuel
    rw [hns]
  rw [hLHS]
  show countNode (.node m.id m.content m.senderId m.receiverId m.createdAt m.edited ns) = _
  rw [countNode_node]
  congr 1
  apply sum_map_forall₂
  refine List.Forall₂.imp ?_ hf₂
  intro a b hab
  have hsucc := ser_fuel_succ (maxCreated s + 1) (grp L) a b hab
  have hfb : bfsFuelBound s = (maxCreated s + 1) + 1 := by
    unfold bfsFuelBound
    omega
  rw [hfb, hsucc]
  rfl

/-! ## Grouping by parent id partitions the descendant list -/

theorem sum_filter_or (L : List Message) (p q : Message → Bool) (w : Message → Nat)
    (hdisj : ∀ x ∈ L, ¬(p x = true ∧ q x = true)) :
    ((L.filter (fun x => p x || q x)).map w).sum
      = ((L.filter p).map w).sum + ((L.filter q).map w).sum := by
  induction L with
  | nil => simp
  | cons a t ih =>
    have hd := hdisj a (by simp)
    have iht := ih (fun x hx => hdisj x (by simp [hx]))
    by_cases hpa : p a = true
    · have hqa : ¬q a = true := fun hq => hd ⟨hpa, hq⟩
      rw [show List.filter (fun x => p x || q x) (a :: t)
            = a :: List.filter (fun x => p x || q x) t from
            List.filter_cons_of_pos (by simp [hpa]),
        List.filter_cons_of_pos hpa, List.filter_cons_of_neg hqa]
      simp only [List.map_cons, List.sum_cons, iht]
      omega
    · by_cases hqa : q a = true
      · rw [show List.filter (fun x => p x || q x) (a :: t)
              = a :: List.filter (fun x => p x || q x) t from
              List.filter_cons_of_pos (by simp [hqa]),
          List.filter_cons_of_neg hpa, List.filter_cons_of_pos hqa]
        simp only [List.map_cons, List.sum_cons, iht]
        omega
      · rw [show List.filter (fun x => p x || q x) (a :: t)
              = List.filter (fun x => p x || q x) t from
              List.filter_cons_of_neg (by simp [hpa, hqa]),
          List.filter_cons_of_neg hpa, List.filter_cons_of_neg hqa]
        exact iht

theorem parent_partition_aux (w : Message → Nat) :
    ∀ (N L : List Message),
    (N.map (fun m => m.id)).Nodup →
    (N.map (fun m => ((L.filter (fun c => c.parentId == some m.id)).map w).sum)).sum
      = ((L.filter (fun c =>
          match c.parentId with
          | some pid => decide (pid ∈ N.map (fun m => m.id))
          | none => false)).map w).sum := by
  intro N
  induction N with
  | nil =>
    intro L _
    have h0 : (L.filter (fun c =>
        match c.parentId with
        | some pid => decide (pid ∈ ([] : List Message).map (fun m => m.id))
        | none => false)) = [] := by
      rw [List.filter_eq_nil_iff]
      intro a _
      cases ha : a.parentId <;> simp [ha]
    rw [h0]
    simp
  | cons nmsg N' ih =>
    intro L hnd
    have hnid : nmsg.id ∉ N'.map (fun m => m.id) ∧ (N'.map (fun m => m.id)).Nodup := by
      simpa [List.nodup_cons] using hnd
    have hcong : (L.filter (fun c =>
        match c.parentId with
        | some pid => decide (pid ∈ (nmsg :: N').map (fun m => m.id))
        | none => false))
        = (L.filter (fun c =>
            (c.parentId == some nmsg.id) ||
            (match c.parentId with
             | some pid => decide (pid ∈ N'.map (fun m => m.id))
             | none => false))) := by
      apply List.filter_congr
      intro c _
      cases hc : c.parentId with
      | none => simp
      | some pid =>
        by_cases hpe : pid = nmsg.id
        · subst hpe
          simp
        · simp [List.mem_cons, hpe]
    rw [List.map_cons, List.sum_cons, ih L hnid.2, hcong,
      sum_filter_or L _ _ w (by
        intro x _ hx
        obtain ⟨h1, h2⟩ := hx
        have hxp : x.parentId = some nmsg.id := by
          simpa using h1
        rw [hxp] at h2
        simp only [decide_eq_true_eq] at h2
        exact hnid.1 h2)]

theorem parent_partition (w : Message → Nat) (N L : List Message)
    (hnd : (N.map (fun m => m.id)).Nodup)
    (hclosed : ∀ c ∈ L, ∃ pid, c.parentId = some pid ∧ pid ∈ N.map (fun m => m.id)) :
    (N.map (fun m => ((L.filter (fun c => c.parentId == some m.id)).map w).sum)).sum
      = (L.map w).sum := by
  rw [parent_partition_aux w N L hnd]
  have hall : (L.filter (fun c =>
      match c.parentId with
      | some pid => decide (pid ∈ N.map (fun m => m.id))
      | none => false)) = L := by
    rw [List.filter_eq_self]
    intro c hc
    obtain ⟨pid, hp, hpm⟩ := hclosed c hc
    rw [hp]
    simpa using hpm
  rw [hall]

theorem sum_map_one_add (N : List Message) (g : Message → Nat) :
    (N.map (fun m => 1 + g m)).sum = N.length + (N.map g).sum := by
  induction N with
  | nil => simp
  | cons a t ih =>
    simp only [List.map_cons, List.sum_cons, List.length_cons, ih]
    omega

theorem grp_map_sum (L : List Message) (pid : Nat) (w : Message → Nat) :
    ((grp L pid).map w).sum
      = ((L.filter (fun c => c.parentId == some pid)).map w).sum := by
  unfold grp
  exact ((List.perm_insertionSort _ _).map w).sum_eq

theorem count_sum_trick (w : Message → Nat) (R : Message) (L : List Message)
    (hrec : ∀ m ∈ (R :: L),
      w m = 1 + ((L.filter (fun c => c.parentId == some m.id)).map w).sum)
    (hNnd : ((R :: L).map (fun m => m.id)).Nodup)
    (hclosed : ∀ c ∈ L, ∃ pid, c.parentId = some pid ∧
      pid ∈ (R :: L).map (fun m => m.id)) :
    w R = 1 + L.length := by
  have hsum1 : ((R :: L).map w).sum = (R :: L).length + (L.map w).sum := by
    rw [List.map_congr_left hrec, sum_map_one_add,
      parent_partition w (R :: L) L hNnd hclosed]
  have hsum2 : ((R :: L).map w).sum = w R + (L.map w).sum := by
    simp
  have hlen : (R :: L).length = L.length + 1 := by simp
  omega

/-- C7: for an acyclic thread rooted at R (root with no parent, parents
existing and preceding children in creation order, unique pks), the nested
tree returned by build_thread_tree exists, the descendant list is exactly
the set of proper descendants of R with no repetition, and the flattened
node count of the tree is 1 plus the number of descendants. -/
theorem build_thread_tree_node_count (s : Store) (R : Message)
    (hnd : idsNodup s) (hR : R ∈ s.messages) (hroot : R.parentId = none)
    (hpp : ParentsPrecede s) :
    ∃ L t, getAllReplies s R = some L ∧ build_thread_tree s R = some t ∧
      (∀ m, m ∈ L ↔ IsDesc s R.id m) ∧ L.Nodup ∧ countNode t = 1 + L.length := by
  obtain ⟨L, hL⟩ : ∃ L, bfsAux (bfsFuelBound s) s [R.id] = some L := by
    apply bfsAux_some_of_acyclic s hpp hnd (bfsFuelBound s) R.createdAt [R.id]
    · intro pid hpid p hpmem hpe
      have hpidr : pid = R.id := by simpa using hpid
      subst hpidr
      have hpr : p = R := eq_of_mem_same_id s hnd p R hpmem hR hpe
      rw [hpr]
    · exact ⟨R.id, by simp, R, hR, rfl⟩
    · have := maxCreated_bound s R hR
      unfold bfsFuelBound
      omega
  have hga : getAllReplies s R = some L := hL
  have hsub : ∀ x ∈ L, x ∈ s.messages := bfsAux_sub s (bfsFuelBound s) [R.id] L hL
  have hropar : parentOf s R.id = none := by
    rw [parentOf_mem s hnd R hR, hroot]
  obtain ⟨hidnd, hdepth⟩ := bfs_nodup_depth s hnd R.id hropar (bfsFuelBound s) [R.id] 0 L hL
    (by
      intro pid hpid
      have hpe : pid = R.id := by simpa using hpid
      rw [hpe]
      rfl)
  have hchar : ∀ m, m ∈ L ↔ IsDesc s R.id m := by
    intro m
    constructor
    · intro hm
      obtain ⟨e, he1, he2⟩ := hdepth m hm
      rw [Nat.zero_add] at he2
      exact ⟨hsub m hm, e, he1, he2⟩
    · rintro ⟨hmm, e, he1, he2⟩
      exact bfs_complete s hnd (bfsFuelBound s) R hR L hL e m he1 hmm he2
  have hLnd : L.Nodup := List.Nodup.of_map _ hidnd
  have hRnotL : R.id ∉ L.map (fun m => m.id) := by
    intro hmem
    obtain ⟨c, hc, hce⟩ := List.mem_map.mp hmem
    obtain ⟨e, he1, he2⟩ := hdepth c hc
    rw [Nat.zero_add, hce] at he2
    exact upSteps_root_ne s R.id hropar e he1 he2
  have hNnd : ((R :: L).map (fun m => m.id)).Nodup := by
    rw [List.map_cons]
    exact List.nodup_cons.mpr ⟨hRnotL, hidnd⟩
  have hclosed : ∀ c ∈ L, ∃ pid, c.parentId = some pid ∧
      pid ∈ (R :: L).map (fun m => m.id) := by
    intro c hc
    obtain ⟨e, he1, he2⟩ := hdepth c hc
    rw [Nat.zero_add] at he2
    have hcm : c ∈ s.messages := hsub c hc
    cases e with
    | zero => omega
    | succ e' =>
      have hup' : (parentOf s c.id).bind (upSteps s e') = some R.id := he2
      cases hpo : parentOf s c.id with
      | none => rw [hpo] at hup'; simp at hup'
      | some q =>
        rw [hpo] at hup'
        simp only [Option.some_bind] at hup'
        have hcp : c.parentId = some q := by
          rw [← parentOf_mem s hnd c hcm]
          exact hpo
        refine ⟨q, hcp, ?_⟩
        cases Nat.eq_zero_or_pos e' with
        | inl h0 =>
          subst h0
          have hqr : q = R.id := by simpa [upSteps] using hup'
          rw [hqr, List.map_cons]
          simp
        | inr hpos =>
          have hq : ∃ p, findMsg s q = some p := by
            cases e' with
            | zero => omega
            | succ e'' =>
              have h2 : (parentOf s q).bind (upSteps s e'') = some R.id := hup'
              cases hpq : parentOf s q with
              | none => rw [hpq] at h2; simp at h2
              | some z =>
                unfold parentOf at hpq
                cases hfq : findMsg s q with
                | none => rw [hfq] at hpq; simp at hpq
                | some p => exact ⟨p, rfl⟩
          obtain ⟨p, hp⟩ := hq
          obtain ⟨hpmem, hpid⟩ := findMsg_some s q p hp
          have hpL : p ∈ L := bfs_complete s hnd (bfsFuelBound s) R hR L hL e' p hpos hpmem
            (by rw [hpid]; exact hup')
          rw [List.map_cons]
          refine List.mem_cons_of_mem _ ?_
          rw [← hpid]
          exact List.mem_map_of_mem _ hpL
  have hclimb : getThreadRoot s R = .ok R := by
    have hfb : climbFuelBound s = (2 * s.messages.length + 2) + 1 := by
      unfold climbFuelBound
      omega
    unfold getThreadRoot
    rw [hfb]
    unfold climbAux
    rw [hroot]
  obtain ⟨t, ht⟩ := ser_some s hnd hpp L hsub (bfsFuelBound s) R hR
    (by
      unfold bfsFuelBound
      omega)
  have hbuild : build_thread_tree s R = some t := by
    simp only [build_thread_tree, hclimb, hga, ht]
  have hrec : ∀ m ∈ (R :: L),
      (fun c => countOpt (serializeFuel (bfsFuelBound s) (grp L) c)) m
        = 1 + ((L.filter (fun c => c.parentId == some m.id)).map
            (fun c => countOpt (serializeFuel (bfsFuelBound s) (grp L) c))).sum := by
    intro m hm
    have hmmem : m ∈ s.messages := by
      rcases List.mem_cons.mp hm with h | h
      · rw [h]; exact hR
      · exact hsub m h
    show countOpt (serializeFuel (bfsFuelBound s) (grp L) m) = _
    rw [ser_count_rec s hnd hpp L hsub m hmmem, grp_map_sum]
  have hcount := count_sum_trick
    (fun c => countOpt (serializeFuel (bfsFuelBound s) (grp L) c)) R L hrec hNnd hclosed
  refine ⟨L, t, hga, hbuild, hchar, hLnd, ?_⟩
  have hco : countOpt (serializeFuel (bfsFuelBound s) (grp L) R) = countNode t := by
    rw [ht]
    rfl
  simp only [hco] at hcount
  exact hcount

/-- C7 witness: the four-message thread of the spec example — root 1 with
children 2 and 3, and 4 under 2 — has a tree whose flattened count is 4. -/
theorem build_thread_tree_node_count_witness :
    (idsNodup ex4 ∧ r1 ∈ ex4.messages ∧ r1.parentId = none ∧ ParentsPrecede ex4) ∧
    (∃ L t, getAllReplies ex4 r1 = some L ∧ build_thread_tree ex4 r1 = some t ∧
      (∀ m, m ∈ L ↔ IsDesc ex4 r1.id m) ∧ L.Nodup ∧ countNode t = 1 + L.length) :=
  ⟨⟨by decide, by decide, by decide, by decide⟩,
   build_thread_tree_node_count ex4 r1 (by decide) (by decide) (by decide) (by decide)⟩

/-! ## Thread retrieval authorization (claim C8) -/

theorem climbAux_ok_mem : ∀ (fuel : Nat) (s : Store) (root : Message) (seen : List Nat)
    (r : Message), climbAux fuel s root seen = .ok r → root ∈ s.messages →
    r ∈ s.messages := by
  intro fuel
  induction fuel with
  | zero => intro s root seen r h; simp [climbAux] at h
  | succ n ih =>
    intro s root seen r h hmem
    unfold climbAux at h
    cases hp : root.parentId with
    | none =>
      rw [hp] at h
      have h2 : ClimbResult.ok root = .ok r := h
      cases h2
      exact hmem
    | some pid =>
      rw [hp] at h
      have h2 : (if pid ∈ seen then ClimbResult.ok root
          else match findMsg s pid with
               | none => ClimbResult.dangling
               | some p => climbAux n s p (root.id :: seen)) = ClimbResult.ok r := h
      by_cases hseen : pid ∈ seen
      · rw [if_pos hseen] at h2
        cases h2
        exact hmem
      · rw [if_neg hseen] at h2
        cases hf : findMsg s pid with
        | none =>
          rw [hf] at h2
          simp at h2
        | some p =>
          rw [hf] at h2
          exact ih s p (root.id :: seen) r h2 (findMsg_some s pid p hf).1

theorem getThreadRoot_ok_mem (s : Store) (m root : Message)
    (h : getThreadRoot s m = .ok root) (hm : m ∈ s.messages) : root ∈ s.messages :=
  climbAux_ok_mem (climbFuelBound s) s m [] root h hm

theorem getAllReplies_some_of_acyclic (s : Store) (m : Message)
    (hpp : ParentsPrecede s) (hnd : idsNodup s) (hm : m ∈ s.messages) :
    ∃ l, getAllReplies s m = some l := by
  unfold getAllReplies
  apply bfsAux_some_of_acyclic s hpp hnd (bfsFuelBound s) m.createdAt [m.id]
  · intro pid hpid p hpmem hpe
    have hpe2 : pid = m.id := by simpa using hpid
    subst hpe2
    have hpm : p = m := eq_of_mem_same_id s hnd p m hpmem hm hpe
    rw [hpm]
  · exact ⟨m.id, by simp, m, hm, rfl⟩
  · have := maxCreated_bound s m hm
    unfold bfsFuelBound
    omega

/-- C8: thread retrieval — which evaluates the climb and the full
breadth-first fetch of the root's descendants before the permission check —
succeeds only for a caller who is sender or receiver of the requested
message or of its resolved ancestor root; and on every store satisfying
the spec's data-model invariants (unique pks, parents existing and
preceding their children, so the eager pre-permission fetch terminates),
every other caller receives Forbidden and no tree. -/
theorem thread_detail_participants_only (s : Store) (uid mid : Nat) :
    (∀ t, thread_detail s uid mid = .ok t →
      ∃ m root, findMsg s mid = some m ∧ getThreadRoot s m = .ok root ∧
        (uid = root.senderId ∨ uid = root.receiverId ∨
         uid = m.senderId ∨ uid = m.receiverId)) ∧
    (∀ m root, findMsg s mid = some m → getThreadRoot s m = .ok root →
      ParentsPrecede s → idsNodup s →
      ¬(uid = root.senderId ∨ uid = root.receiverId ∨
        uid = m.senderId ∨ uid = m.receiverId) →
      thread_detail s uid mid = .forbidden) := by
  constructor
  · intro t ht
    unfold thread_detail at ht
    split at ht
    · exact absurd ht (by simp)
    · rename_i m hm
      split at ht
      · rename_i root hroot
        split at ht
        · split at ht
          · rename_i hperm
            split at ht
            · exact ⟨m, root, hm, hroot, hperm⟩
            · exact absurd ht (by simp)
          · exact absurd ht (by simp)
        · exact absurd ht (by simp)
      all_goals exact absurd ht (by simp)
  · intro m root hm hroot hpp hnd hnp
    have hmm : m ∈ s.messages := (findMsg_some s mid m hm).1
    have hrootmem : root ∈ s.messages := getThreadRoot_ok_mem s m root hroot hmm
    obtain ⟨l, hl⟩ := getAllReplies_some_of_acyclic s root hpp hnd hrootmem
    simp only [thread_detail, hm, hroot, hl, if_neg hnp]

/-- C8 witness: user 9 participates nowhere in the thread of message 4 of
ex4 (an acyclic store with unique pks) and is rejected with Forbidden. -/
theorem thread_detail_participants_only_witness :
    (findMsg ex4 4 = some c3 ∧ getThreadRoot ex4 c3 = .ok r1 ∧
      ParentsPrecede ex4 ∧ idsNodup ex4 ∧
      ¬(9 = r1.senderId ∨ 9 = r1.receiverId ∨ 9 = c3.senderId ∨ 9 = c3.receiverId)) ∧
    thread_detail ex4 9 4 = .forbidden :=
  ⟨⟨by decide, by decide, by decide, by decide, by decide⟩,
   (thread_detail_participants_only ex4 9 4).2 c3 r1 (by decide) (by decide)
     (by decide) (by decide) (by decide)⟩

end Messaging
